import Mathlib

/-
Shallow embedding of transport/grpc/pool.go from google-api-go-client.

The file models the two connection-pool strategies (singleConnPool and
roundRobinConnPool) and the multiError aggregator, then proves the
specified properties about them.

Modelling conventions:
- A grpc.ClientConn handle is an abstract value of a type parameter.
- A Go error value is modelled as Option String: none is the nil error,
  some msg is a non-nil error whose Error() method returns msg.
- The behaviour of the external Close method of a handle is supplied as an
  oracle closeFn mapping each handle to the error it returns.
- The uint32 selection counter idx is a Nat kept below 2^32; the atomic
  AddUint32 is the map i to (i + 1) mod 2^32. Methods that mutate the
  receiver are state-passing: they return the new pool value.
- Slice indexing p.conns[j] is List.get?, so an out-of-range access, a
  runtime fault in Go, appears as none.
- roundRobinConnPool.Close additionally returns the trace of handles on
  which Close was invoked, in invocation order, so that the visit-each-
  handle-exactly-once property is observable.
-/

namespace PoolSpec

/-- Width of the uint32 selection counter. -/
def u32 : Nat := 4294967296

/-- Embedding of type singleConnPool: a pool holding exactly one handle. -/
structure SingleConnPool (α : Type) where
  conn : α

/-- Embedding of func (p singleConnPool) Conn: returns the stored handle;
the receiver is not mutated. -/
def SingleConnPool.Conn {α : Type} (p : SingleConnPool α) : α :=
  p.conn

/-- Embedding of func (p singleConnPool) Close: returns the result of
closing the one handle, verbatim. -/
def SingleConnPool.Close {α : Type} (closeFn : α → Option String)
    (p : SingleConnPool α) : Option String :=
  closeFn p.conn

/-- Embedding of type roundRobinConnPool: an ordered list of handles and
the uint32 selection counter (access via sync/atomic in the source). -/
structure RoundRobinConnPool (α : Type) where
  conns : List α
  idx : Nat

/-- Embedding of func (p roundRobinConnPool) Conn:
i := atomic.AddUint32(&p.idx, 1); return p.conns[i % uint32(len(p.conns))].
Returns the new pool state together with the selected handle. -/
def RoundRobinConnPool.Conn {α : Type} (p : RoundRobinConnPool α) :
    RoundRobinConnPool α × Option α :=
  let i := (p.idx + 1) % u32
  ({ p with idx := i }, p.conns.get? (i % p.conns.length))

/-- Iterated Conn: performs n successive Conn calls, recording for each
call the counter value observed (the value returned by the atomic add)
and the handle returned. -/
def RoundRobinConnPool.connN {α : Type} (p : RoundRobinConnPool α) :
    Nat → RoundRobinConnPool α × List (Nat × Option α)
  | 0 => (p, [])
  | m + 1 =>
    let s := p.Conn
    let r := s.1.connN m
    (r.1, (s.1.idx, s.2) :: r.2)

/-- Loop body of func (p roundRobinConnPool) Close: visits every element
of the list in order, calls closeFn on it, and appends each non-nil error
to errs. The first component is the trace of handles visited, in order;
the second is the collected error list errs. -/
def closeLoop {α : Type} (closeFn : α → Option String) :
    List α → List α × List (Option String)
  | [] => ([], [])
  | c :: cs =>
    let r := closeFn c
    let rest := closeLoop closeFn cs
    (c :: rest.1,
      match r with
      | some e => some e :: rest.2
      | none => rest.2)

/-- Embedding of func (p roundRobinConnPool) Close: closes every handle,
collecting non-nil errors; returns nil when no error was collected, and
the multiError errs otherwise. The first component is the invocation
trace. -/
def RoundRobinConnPool.Close {α : Type} (closeFn : α → Option String)
    (p : RoundRobinConnPool α) : List α × Option (List (Option String)) :=
  let r := closeLoop closeFn p.conns
  (r.1, if r.2.length = 0 then none else some r.2)

/-- Embedding of type multiError: an ordered list of (possibly nil) error
values. -/
abbrev multiError := List (Option String)

/-- Loop of func (m multiError) Error: s is the message of the first
non-nil error seen so far, n the number of non-nil errors seen so far. -/
def errLoop : List (Option String) → String → Nat → String × Nat
  | [], s, n => (s, n)
  | e :: es, s, n =>
    match e with
    | none => errLoop es s n
    | some msg => errLoop es (if n = 0 then msg else s) (n + 1)

/-- Embedding of func (m multiError) Error. -/
def multiError.Error (m : multiError) : String :=
  let r := errLoop m "" 0
  if r.2 = 0 then "(0 errors)"
  else if r.2 = 1 then r.1
  else if r.2 = 2 then r.1 ++ " (and 1 other error)"
  else r.1 ++ " (and " ++ toString (r.2 - 1) ++ " other errors)"

/-- The example pool of the specification, freshly constructed from the
handles [A, B, C] with the counter at zero. -/
def rrPoolABC : RoundRobinConnPool String :=
  { conns := ["A", "B", "C"], idx := 0 }

/-- A close oracle with a mixed success and failure pattern on the example
handles: A fails with message ea, B succeeds, C fails with message ec. -/
def closeFnAC : String → Option String :=
  fun c => if c = "A" then some "ea" else if c = "C" then some "ec" else none

example : (rrPoolABC.connN 4).2.map Prod.snd =
    [some "B", some "C", some "A", some "B"] := by decide

example : (rrPoolABC.Close closeFnAC).2 = some [some "ea", some "ec"] := by
  decide

example : multiError.Error [some "x", some "y", some "z"] =
    "x (and 2 other errors)" := by decide

/-- The first component of Conn is the pool with the counter advanced. -/
theorem conn_fst {α : Type} (p : RoundRobinConnPool α) :
    (p.Conn).1 = { conns := p.conns, idx := (p.idx + 1) % u32 } := rfl

/-- The second component of Conn is the handle at the advanced counter
value reduced modulo the handle count. -/
theorem conn_snd {α : Type} (p : RoundRobinConnPool α) :
    (p.Conn).2 = p.conns.get? (((p.idx + 1) % u32) % p.conns.length) := rfl

/-- Iterating Conn never changes the handle sequence. -/
theorem connN_conns {α : Type} (M : Nat) : ∀ (p : RoundRobinConnPool α),
    (p.connN M).1.conns = p.conns := by
  induction M with
  | zero => intro p; rfl
  | succ m ih => intro p; exact ih (p.Conn).1

/-- After M iterated Conn calls the counter holds its initial value plus M,
reduced modulo 2^32. -/
theorem connN_idx {α : Type} (M : Nat) : ∀ (p : RoundRobinConnPool α),
    p.idx < u32 → (p.connN M).1.idx = (p.idx + M) % u32 := by
  induction M with
  | zero => intro p h; simp [RoundRobinConnPool.connN, Nat.mod_eq_of_lt h]
  | succ m ih =>
    intro p _
    have h1 : (p.Conn).1.idx < u32 := Nat.mod_lt _ (by decide)
    calc (p.connN (m + 1)).1.idx = ((p.Conn).1.connN m).1.idx := rfl
      _ = ((p.idx + 1) % u32 + m) % u32 := ih (p.Conn).1 h1
      _ = (p.idx + (m + 1)) % u32 := by rw [Nat.mod_add_mod]; congr 1; omega

/-- The observation list of M iterated Conn calls: the k-th call (counting
k from 0) observes counter value (idx + k + 1) mod 2^32 and returns the
handle at that value reduced modulo the handle count. -/
theorem connN_obs {α : Type} (M : Nat) : ∀ (p : RoundRobinConnPool α),
    (p.connN M).2 = (List.range M).map (fun k =>
      ((p.idx + k + 1) % u32,
        p.conns.get? (((p.idx + k + 1) % u32) % p.conns.length))) := by
  induction M with
  | zero => intro p; rfl
  | succ m ih =>
    intro p
    have hstep : (p.connN (m + 1)).2 =
        ((p.idx + 1) % u32,
          p.conns.get? (((p.idx + 1) % u32) % p.conns.length))
          :: ((p.Conn).1.connN m).2 := rfl
    rw [hstep, ih (p.Conn).1, conn_fst]
    rw [List.range_succ_eq_map, List.map_cons, List.map_map]
    refine congrArg₂ List.cons (by simp) ?_
    apply List.map_congr_left
    intro k _
    have e : ((p.idx + 1) % u32 + k + 1) % u32 = (p.idx + Nat.succ k + 1) % u32 := by
      rw [Nat.add_assoc, Nat.mod_add_mod]; congr 1; omega
    simp [e]

/-- A mapped range of naturals shifted by s is a chain of consecutive
successors. -/
theorem chain_succ_map (M s : Nat) :
    List.Chain' (fun a b => b = a + 1) ((List.range M).map (fun k => k + s)) := by
  cases M with
  | zero => simp
  | succ m =>
    rw [List.chain'_map, List.chain'_range_succ]
    intro i _
    omega

/-- Wrapping a list in some and filtering out the nones recovers it. -/
theorem filterMap_id_map_some {β : Type} (l : List β) :
    (l.map some).filterMap id = l := by
  rw [List.filterMap_map]
  simp

/-- The Close loop visits exactly the given handles in order and collects
exactly the non-nil close results, in order, as non-nil error values. -/
theorem closeLoop_eq {α : Type} (closeFn : α → Option String) (l : List α) :
    closeLoop closeFn l = (l, (l.filterMap closeFn).map some) := by
  induction l with
  | nil => rfl
  | cons c cs ih =>
    cases h : closeFn c <;>
      simp [closeLoop, ih, List.filterMap_cons, h]

/-- Characterisation of roundRobinConnPool.Close in terms of filterMap. -/
theorem Close_eq {α : Type} (closeFn : α → Option String)
    (p : RoundRobinConnPool α) :
    p.Close closeFn = (p.conns,
      if (p.conns.filterMap closeFn).length = 0 then none
      else some ((p.conns.filterMap closeFn).map some)) := by
  simp [RoundRobinConnPool.Close, closeLoop_eq]

/-- Once n is positive, the Error loop never changes s and just adds the
number of remaining non-nil entries to n. -/
theorem errLoop_pos (l : List (Option String)) :
    ∀ (s : String) (n : Nat), n ≠ 0 →
      errLoop l s n = (s, n + (l.filterMap id).length) := by
  induction l with
  | nil => intro s n _; simp [errLoop]
  | cons e es ih =>
    intro s n hn
    cases e with
    | none => simpa [errLoop, List.filterMap_cons] using ih s n hn
    | some msg =>
      simp only [errLoop, if_neg hn, ih s (n + 1) (Nat.succ_ne_zero n),
        List.filterMap_cons, id, List.length_cons, Prod.mk.injEq]
      exact ⟨trivial, by omega⟩

/-- Run from its initial state, the Error loop computes the message of the
first non-nil entry together with the number of non-nil entries. -/
theorem errLoop_zero (l : List (Option String)) :
    errLoop l "" 0 = ((l.filterMap id).headD "", (l.filterMap id).length) := by
  induction l with
  | nil => rfl
  | cons e es ih =>
    cases e with
    | none => simpa [errLoop, List.filterMap_cons] using ih
    | some msg =>
      have h1 : errLoop (some msg :: es) "" 0 = errLoop es msg 1 := by
        simp [errLoop]
      rw [h1, errLoop_pos es msg 1 one_ne_zero]
      simp [List.filterMap_cons, Prod.mk.injEq, Nat.add_comm]

/-- The rendered message of a multiError whose first non-nil entry has
message x begins with x. -/
theorem Error_head (x : String) (l : List String) (m : multiError)
    (hfm : m.filterMap id = x :: l) :
    ∃ t, multiError.Error m = x ++ t := by
  have herr := errLoop_zero m
  rw [hfm] at herr
  refine ⟨if l.length = 0 then "" else if l.length = 1
      then " (and 1 other error)"
      else " (and " ++ toString l.length ++ " other errors)", ?_⟩
  simp only [multiError.Error, herr, List.headD_cons, List.length_cons]
  rcases l with _ | ⟨y, l2⟩
  · simp
  · rcases l2 with _ | ⟨z, l3⟩
    · simp
    · simp only [List.length_cons]
      rw [if_neg (by omega), if_neg (by omega), if_neg (by omega),
        if_neg (by omega), if_neg (by omega)]
      simp [String.append_assoc,
        show l3.length + 1 + 1 + 1 - 1 = l3.length + 1 + 1 from by omega]

/-- Conn on a nonempty round-robin pool always returns some handle from
the pool. -/
theorem conn_total {α : Type} (p : RoundRobinConnPool α)
    (hN : 1 ≤ p.conns.length) :
    ∃ c, (p.Conn).2 = some c ∧ c ∈ p.conns := by
  have hlt : ((p.idx + 1) % u32) % p.conns.length < p.conns.length :=
    Nat.mod_lt _ hN
  refine ⟨p.conns.get ⟨((p.idx + 1) % u32) % p.conns.length, hlt⟩, ?_,
    List.get_mem _ _ _⟩
  exact List.get?_eq_get hlt

/-- Claim C1: on a round-robin pool over N >= 1 handles, Conn increments
the uint32 counter by one (so the stored value becomes (idx + 1) mod 2^32,
which is idx + 1 whenever that does not overflow) and returns the handle
at index counter mod N; with the counter at zero the first call returns
the element at index 1 mod N; on the example pool [A, B, C] four
sequential calls return B, C, A, B. -/
theorem conn_increments_then_indexes {α : Type} (p : RoundRobinConnPool α)
    (hN : 1 ≤ p.conns.length) :
    ((p.Conn).1.idx = (p.idx + 1) % u32
      ∧ (p.idx + 1 < u32 → (p.Conn).1.idx = p.idx + 1)
      ∧ (p.Conn).2 = p.conns.get? ((p.Conn).1.idx % p.conns.length))
    ∧ (p.idx = 0 → (p.Conn).2 = p.conns.get? (1 % p.conns.length))
    ∧ (rrPoolABC.connN 4).2.map Prod.snd =
        [some "B", some "C", some "A", some "B"] := by
  refine ⟨⟨rfl, fun h => ?_, rfl⟩, fun h0 => ?_, by decide⟩
  · show (p.idx + 1) % u32 = p.idx + 1
    exact Nat.mod_eq_of_lt h
  · show p.conns.get? (((p.idx + 1) % u32) % p.conns.length) = _
    rw [h0]
    norm_num [u32]

/-- Witness for C1: the contract evaluated on the example pool. -/
theorem conn_increments_then_indexes_witness :
    ((rrPoolABC.Conn).1.idx = (rrPoolABC.idx + 1) % u32
      ∧ (rrPoolABC.idx + 1 < u32 → (rrPoolABC.Conn).1.idx = rrPoolABC.idx + 1)
      ∧ (rrPoolABC.Conn).2 =
          rrPoolABC.conns.get? ((rrPoolABC.Conn).1.idx % rrPoolABC.conns.length))
    ∧ (rrPoolABC.idx = 0 →
        (rrPoolABC.Conn).2 = rrPoolABC.conns.get? (1 % rrPoolABC.conns.length))
    ∧ (rrPoolABC.connN 4).2.map Prod.snd =
        [some "B", some "C", some "A", some "B"] :=
  conn_increments_then_indexes rrPoolABC (by decide)

/-- Claim C2: rendering of a multiError (nil entries are skipped both for
the count and for the representative message): no non-nil entry gives
"(0 errors)"; exactly one gives the message of that entry, unmodified;
exactly two give the first message followed by " (and 1 other error)"; more than
two gives the first message followed by " (and N other errors)" with
N = count - 1. -/
theorem multiError_rendering (m : multiError) :
    (m.filterMap id = [] → multiError.Error m = "(0 errors)")
    ∧ (∀ x, m.filterMap id = [x] → multiError.Error m = x)
    ∧ (∀ x y, m.filterMap id = [x, y] →
        multiError.Error m = x ++ " (and 1 other error)")
    ∧ (∀ x l, m.filterMap id = x :: l → 2 < (m.filterMap id).length →
        multiError.Error m =
          x ++ " (and " ++ toString ((m.filterMap id).length - 1)
            ++ " other errors)") := by
  have hz := errLoop_zero m
  refine ⟨fun h => ?_, fun x h => ?_, fun x y h => ?_, fun x l h hlen => ?_⟩
  · simp [multiError.Error, hz, h]
  · simp [multiError.Error, hz, h]
  · simp [multiError.Error, hz, h]
  · rw [h] at hlen
    simp only [List.length_cons] at hlen
    rw [h]
    simp only [multiError.Error, hz, h, List.headD_cons, List.length_cons]
    rw [if_neg (by omega), if_neg (by omega), if_neg (by omega)]

/-- Witness for C2: the four rendering cases on concrete error lists. -/
theorem multiError_rendering_witness :
    multiError.Error [] = "(0 errors)"
    ∧ multiError.Error [none, some "x", none] = "x"
    ∧ multiError.Error [some "x", none, some "y"] = "x (and 1 other error)"
    ∧ multiError.Error [some "x", some "y", some "z"] =
        "x (and 2 other errors)" :=
  ⟨(multiError_rendering []).1 rfl,
    (multiError_rendering [none, some "x", none]).2.1 "x" rfl,
    ((multiError_rendering [some "x", none, some "y"]).2.2.1 "x" "y" rfl).trans
      rfl,
    ((multiError_rendering [some "x", some "y", some "z"]).2.2.2 "x" ["y", "z"]
      rfl (by decide)).trans rfl⟩

/-- Claim C3: Close on a round-robin pool over N >= 1 handles invokes
close on every handle exactly once, in the original sequence order,
whatever the pattern of per-handle close outcomes: the invocation trace
is exactly the handle sequence. -/
theorem close_visits_every_handle {α : Type} (closeFn : α → Option String)
    (p : RoundRobinConnPool α) (hN : 1 ≤ p.conns.length) :
    (p.Close closeFn).1 = p.conns := by
  rw [Close_eq]

/-- Witness for C3: the trace on the example pool with a mixed
success-and-failure close pattern. -/
theorem close_visits_every_handle_witness :
    (rrPoolABC.Close closeFnAC).1 = rrPoolABC.conns :=
  close_visits_every_handle closeFnAC rrPoolABC (by decide)

/-- Claim C4: round-robin Close returns nil exactly when every handle
closed successfully; otherwise it returns the aggregate whose entries are
exactly the non-nil close failures, in encounter order, each entry the
failure value itself. -/
theorem close_aggregates_failures {α : Type} (closeFn : α → Option String)
    (p : RoundRobinConnPool α) :
    ((p.Close closeFn).2 = none ↔ ∀ c ∈ p.conns, closeFn c = none)
    ∧ ∀ m, (p.Close closeFn).2 = some m →
        m = (p.conns.filterMap closeFn).map some := by
  have h2 : (p.Close closeFn).2 =
      if (p.conns.filterMap closeFn).length = 0 then none
      else some ((p.conns.filterMap closeFn).map some) := by
    rw [Close_eq]
  rw [h2]
  by_cases hz : (p.conns.filterMap closeFn).length = 0
  · have hnil : p.conns.filterMap closeFn = [] := List.length_eq_zero.mp hz
    rw [if_pos hz]
    exact ⟨⟨fun _ => List.filterMap_eq_nil_iff.mp hnil, fun _ => rfl⟩,
      fun m hm => Option.noConfusion hm⟩
  · constructor
    · rw [if_neg hz]
      constructor
      · intro h; exact absurd h (by simp)
      · intro hall
        exact absurd
          (by rw [List.filterMap_eq_nil_iff.mpr hall]; rfl :
            (p.conns.filterMap closeFn).length = 0) hz
    · intro m hm
      rw [if_neg hz] at hm
      exact (Option.some.inj hm).symm

/-- Witness for C4: the aggregate on the example pool where A and C fail. -/
theorem close_aggregates_failures_witness :
    ([some "ea", some "ec"] : multiError) =
      (rrPoolABC.conns.filterMap closeFnAC).map some :=
  (close_aggregates_failures closeFnAC rrPoolABC).2 [some "ea", some "ec"]
    (by decide)

/-- Claim C5: a single-connection pool returns its one stored handle from
every Conn call, and Close returns exactly the result of closing that one
handle, with no wrapping and no aggregation. -/
theorem single_pool_conn_close {α : Type} (closeFn : α → Option String)
    (p : SingleConnPool α) :
    p.Conn = p.conn ∧ SingleConnPool.Close closeFn p = closeFn p.conn :=
  ⟨rfl, rfl⟩

/-- Counterexample to claim C6: Conn on a round-robin pool does not leave
the pool state unchanged; on the fresh example pool it moves the counter
from 0 to 1, so the pool value after the call differs from the pool value
before it. -/
theorem conn_pure_cex :
    (rrPoolABC.Conn).1.idx = 1 ∧ rrPoolABC.idx = 0
    ∧ (rrPoolABC.Conn).1 ≠ rrPoolABC := by
  refine ⟨by decide, rfl, fun h => ?_⟩
  have h2 := congrArg RoundRobinConnPool.idx h
  exact absurd h2 (by decide)

/-- Claim C6 as amended: for both strategies Conn returns a handle and
never fails; the single pool is left fully unchanged, and the round-robin
pool keeps its handle sequence unchanged, its only state change being the
counter advancing by one modulo 2^32. -/
theorem conn_no_side_effects_amended {α : Type} (ps : SingleConnPool α)
    (p : RoundRobinConnPool α) (hN : 1 ≤ p.conns.length) :
    ps.Conn = ps.conn
    ∧ (∃ c, (p.Conn).2 = some c ∧ c ∈ p.conns)
    ∧ (p.Conn).1.conns = p.conns
    ∧ (p.Conn).1.idx = (p.idx + 1) % u32 :=
  ⟨rfl, conn_total p hN, rfl, rfl⟩

/-- Witness for the amended C6, on a one-handle single pool and the
example round-robin pool. -/
theorem conn_no_side_effects_amended_witness :
    SingleConnPool.Conn (SingleConnPool.mk "X") = "X"
    ∧ (∃ c, (rrPoolABC.Conn).2 = some c ∧ c ∈ rrPoolABC.conns)
    ∧ (rrPoolABC.Conn).1.conns = rrPoolABC.conns
    ∧ (rrPoolABC.Conn).1.idx = (rrPoolABC.idx + 1) % u32 :=
  conn_no_side_effects_amended (SingleConnPool.mk "X") rrPoolABC (by decide)

/-- Counterexample to claim C7: on the example pool [A, B, C] the
2^32-th Conn call returns the element at index (2^32 mod 2^32) mod 3 = 0,
namely A, while the element at index 2^32 mod 3 = 1 is B, so the returned
handle is not the element at index K mod N once the counter has wrapped. -/
theorem conn_wraparound_cex :
    ((rrPoolABC.connN (u32 - 1)).1.Conn).2 = some "A"
    ∧ u32 % 3 = 1
    ∧ rrPoolABC.conns.get? (u32 % 3) = some "B"
    ∧ ((rrPoolABC.connN (u32 - 1)).1.Conn).2 ≠ rrPoolABC.conns.get? (u32 % 3) := by
  have h1 : (rrPoolABC.connN (u32 - 1)).1.conns = ["A", "B", "C"] :=
    connN_conns (u32 - 1) rrPoolABC
  have h2 : (rrPoolABC.connN (u32 - 1)).1.idx = u32 - 1 := by
    rw [connN_idx (u32 - 1) rrPoolABC (by decide)]
    decide
  have hc : ((rrPoolABC.connN (u32 - 1)).1.Conn).2 = some "A" := by
    rw [conn_snd, h1, h2]
    decide
  refine ⟨hc, by decide, by decide, ?_⟩
  rw [hc]
  decide

/-- Claim C7 as amended: the K-th Conn call (counting from 1, counter
starting at zero) returns the handle at index (K mod 2^32) mod N; that
index is always in bounds, so wrap-around is harmless, and it equals
K mod N whenever K < 2^32 (before the counter wraps). -/
theorem conn_kth_call_amended {α : Type} (p : RoundRobinConnPool α) (K : Nat)
    (h0 : p.idx = 0) (hK : 1 ≤ K) :
    ((p.connN (K - 1)).1.Conn).2 = p.conns.get? ((K % u32) % p.conns.length)
    ∧ (1 ≤ p.conns.length → (K % u32) % p.conns.length < p.conns.length)
    ∧ (K < u32 → (K % u32) % p.conns.length = K % p.conns.length) := by
  have h1 : (p.connN (K - 1)).1.conns = p.conns := connN_conns (K - 1) p
  have h2 : (p.connN (K - 1)).1.idx = (K - 1) % u32 := by
    rw [connN_idx (K - 1) p (by rw [h0]; decide), h0, Nat.zero_add]
  have hmain : ((p.connN (K - 1)).1.Conn).2 =
      p.conns.get? ((K % u32) % p.conns.length) := by
    show (p.connN (K - 1)).1.conns.get?
        ((((p.connN (K - 1)).1.idx + 1) % u32) % (p.connN (K - 1)).1.conns.length)
      = _
    rw [h1, h2]
    have e : ((K - 1) % u32 + 1) % u32 = K % u32 := by
      rw [Nat.mod_add_mod]
      congr 1
      omega
    rw [e]
  exact ⟨hmain, fun hN => Nat.mod_lt _ hN,
    fun hKu => by rw [Nat.mod_eq_of_lt hKu]⟩

/-- Witness for the amended C7: the 4th call on the example pool. -/
theorem conn_kth_call_amended_witness :
    ((rrPoolABC.connN (4 - 1)).1.Conn).2 =
        rrPoolABC.conns.get? ((4 % u32) % rrPoolABC.conns.length)
    ∧ (1 ≤ rrPoolABC.conns.length →
        (4 % u32) % rrPoolABC.conns.length < rrPoolABC.conns.length)
    ∧ (4 < u32 →
        (4 % u32) % rrPoolABC.conns.length = 4 % rrPoolABC.conns.length) :=
  conn_kth_call_amended rrPoolABC 4 rfl (by decide)

/-- Counterexample to claim C8: with M = 2^32 + 1 calls on the example
pool the observed counter values are not all distinct, because the uint32
counter wraps: the 1st and the (2^32 + 1)-th call both observe the
value 1. -/
theorem conn_counter_values_cex :
    ¬ ((rrPoolABC.connN (u32 + 1)).2.map Prod.fst).Nodup := by
  intro hnd
  rw [connN_obs (u32 + 1) rrPoolABC, List.map_map, List.range_succ,
    List.map_append] at hnd
  have hdisj := List.disjoint_of_nodup_append hnd
  have hL : (1 : Nat) ∈ (List.range u32).map
      (Prod.fst ∘ fun k => ((rrPoolABC.idx + k + 1) % u32,
        rrPoolABC.conns.get? (((rrPoolABC.idx + k + 1) % u32)
          % rrPoolABC.conns.length))) :=
    List.mem_map.mpr ⟨0, List.mem_range.mpr (by decide), by decide⟩
  have hR : (1 : Nat) ∈ ([u32] : List Nat).map
      (Prod.fst ∘ fun k => ((rrPoolABC.idx + k + 1) % u32,
        rrPoolABC.conns.get? (((rrPoolABC.idx + k + 1) % u32)
          % rrPoolABC.conns.length))) :=
    List.mem_map.mpr ⟨u32, by decide, by decide⟩
  exact hdisj hL hR

/-- Claim C8 as amended: for M < 2^32 calls on a fresh round-robin pool
(the linearisation of M atomic fetch-and-increment operations), the M
observed counter values are exactly 1, 2, ..., M: pairwise distinct and
consecutive, and the handle returned together with counter value K is the
element at index K mod N. -/
theorem conn_counter_values_amended {α : Type} (p : RoundRobinConnPool α)
    (M : Nat) (h0 : p.idx = 0) (hM : M < u32) :
    ((p.connN M).2.map Prod.fst = (List.range M).map (fun k => k + 1))
    ∧ ((p.connN M).2.map Prod.fst).Nodup
    ∧ List.Chain' (fun a b => b = a + 1) ((p.connN M).2.map Prod.fst)
    ∧ ∀ q ∈ (p.connN M).2, q.2 = p.conns.get? (q.1 % p.conns.length) := by
  have hobs := connN_obs M p
  have hfst : (p.connN M).2.map Prod.fst =
      (List.range M).map (fun k => k + 1) := by
    rw [hobs, List.map_map]
    apply List.map_congr_left
    intro k hk
    have hk2 : k < M := List.mem_range.mp hk
    show (p.idx + k + 1) % u32 = k + 1
    rw [h0, Nat.zero_add]
    exact Nat.mod_eq_of_lt (by omega)
  refine ⟨hfst, ?_, ?_, ?_⟩
  · rw [hfst]
    exact (List.nodup_range M).map fun a b h => Nat.succ_injective h
  · rw [hfst]
    exact chain_succ_map M 1
  · intro q hq
    rw [hobs] at hq
    rcases List.mem_map.mp hq with ⟨k, _, hk⟩
    rw [← hk]

/-- Witness for the amended C8: four calls on the example pool. -/
theorem conn_counter_values_amended_witness :
    ((rrPoolABC.connN 4).2.map Prod.fst = (List.range 4).map (fun k => k + 1))
    ∧ ((rrPoolABC.connN 4).2.map Prod.fst).Nodup
    ∧ List.Chain' (fun a b => b = a + 1) ((rrPoolABC.connN 4).2.map Prod.fst)
    ∧ ∀ q ∈ (rrPoolABC.connN 4).2,
        q.2 = rrPoolABC.conns.get? (q.1 % rrPoolABC.conns.length) :=
  conn_counter_values_amended rrPoolABC 4 rfl (by decide)

/-- Claim C9: for a round-robin pool over N >= 1 handles the index used by
Conn is always strictly below N, so Conn totally returns an element of the
handle sequence and the out-of-range access is unreachable. -/
theorem conn_index_in_bounds {α : Type} (p : RoundRobinConnPool α)
    (hN : 1 ≤ p.conns.length) :
    ((p.idx + 1) % u32) % p.conns.length < p.conns.length
    ∧ ∃ c, (p.Conn).2 = some c ∧ c ∈ p.conns :=
  ⟨Nat.mod_lt _ hN, conn_total p hN⟩

/-- Witness for C9 on the example pool. -/
theorem conn_index_in_bounds_witness :
    ((rrPoolABC.idx + 1) % u32) % rrPoolABC.conns.length < rrPoolABC.conns.length
    ∧ ∃ c, (rrPoolABC.Conn).2 = some c ∧ c ∈ rrPoolABC.conns :=
  conn_index_in_bounds rrPoolABC (by decide)

/-- Claim C10: whenever round-robin Close returns a non-nil error, that
error is an aggregate with at least one entry and no nil entries, its
entries are exactly the close failures in sequence order, its non-nil
count is at least one (so the zero-errors rendering branch is not taken),
and its rendered message begins with the message of the first handle-close
failure in sequence order. -/
theorem close_error_wellformed {α : Type} (closeFn : α → Option String)
    (p : RoundRobinConnPool α) (m : multiError)
    (h : (p.Close closeFn).2 = some m) :
    m ≠ []
    ∧ (∀ e ∈ m, e ≠ none)
    ∧ m.filterMap id = p.conns.filterMap closeFn
    ∧ 1 ≤ (m.filterMap id).length
    ∧ ∃ x t, (m.filterMap id).head? = some x ∧ multiError.Error m = x ++ t := by
  have h2 : (p.Close closeFn).2 =
      if (p.conns.filterMap closeFn).length = 0 then none
      else some ((p.conns.filterMap closeFn).map some) := by rw [Close_eq]
  rw [h2] at h
  by_cases hz : (p.conns.filterMap closeFn).length = 0
  · rw [if_pos hz] at h
    exact absurd h (by simp)
  · rw [if_neg hz] at h
    have hm : m = (p.conns.filterMap closeFn).map some := (Option.some.inj h).symm
    have hfm : m.filterMap id = p.conns.filterMap closeFn := by
      rw [hm, filterMap_id_map_some]
    have hne : p.conns.filterMap closeFn ≠ [] :=
      fun hnil => hz (by rw [hnil]; rfl)
    obtain ⟨x, l, hxl⟩ := List.exists_cons_of_ne_nil hne
    refine ⟨?_, ?_, hfm, ?_, ?_⟩
    · rw [hm, hxl]
      simp
    · intro e he
      rw [hm] at he
      rcases List.mem_map.mp he with ⟨y, _, hy⟩
      rw [← hy]
      simp
    · rw [hfm, hxl]
      simp
    · obtain ⟨t, ht⟩ := Error_head x l m (hfm.trans hxl)
      exact ⟨x, t, by rw [hfm, hxl]; rfl, ht⟩

/-- Witness for C10 on the example pool where A and C fail. -/
theorem close_error_wellformed_witness :
    ([some "ea", some "ec"] : multiError) ≠ []
    ∧ (∀ e ∈ ([some "ea", some "ec"] : multiError), e ≠ none)
    ∧ ([some "ea", some "ec"] : multiError).filterMap id =
        rrPoolABC.conns.filterMap closeFnAC
    ∧ 1 ≤ (([some "ea", some "ec"] : multiError).filterMap id).length
    ∧ ∃ x t, (([some "ea", some "ec"] : multiError).filterMap id).head? = some x
        ∧ multiError.Error [some "ea", some "ec"] = x ++ t :=
  close_error_wellformed closeFnAC rrPoolABC [some "ea", some "ec"] (by decide)

end PoolSpec
